import Mathlib

/-!
# Verification of the Gabriel-graph generator

Shallow embedding of `openpnm/_skgraph/generators/_gabriel.py` (function
`gabriel`).  The source takes a "network dictionary" (string keys
`'node.coords'` / `'edge.conns'` mapping to a coordinate array and an
edge-index array), computes for every candidate edge the midpoint `m`,
the half-length `r`, and the nearest-node distance `n` from `m` (via a
kd-tree over all node coordinates), keeps the edge iff `n >= r*0.999`,
and returns a dictionary that is a copy of the input with the filtered
edge array stored under `edge_prefix + '.conns'` and the unchanged
coordinates stored under `node_prefix + '.coords'`.

Real-number coordinates are modelled as rationals (`ℚ`); the source's
comparison `n >= r*0.999` of two nonnegative square roots is embedded in
the equivalent squared form `n² ≥ r²·0.999²`, which is decidable over ℚ.
The equivalence with the square-root form over ℝ is proved as a theorem
(`gabriel_retains_iff_nearest_ge`), so nothing is lost by the squaring.
-/

/-- A point: one row of the `node.coords` array (length 2 or 3 in practice;
the embedding is dimension-generic, as is the numpy code). -/
abbrev Coord := List ℚ

/-- `m = (c[:, 0, :] + c[:, 1, :])/2` for one edge: componentwise midpoint
of the two endpoint coordinate rows. -/
def edgeMidpoint (p q : Coord) : Coord := List.zipWith (fun a b => (a + b) / 2) p q

/-- Squared Euclidean distance `sum((p - q)**2)` between two coordinate rows.
The source forms `r = sqrt(distSq)/2`; we keep the square. -/
def distSq (p q : Coord) : ℚ := (List.zipWith (fun a b => (a - b) ^ 2) p q).sum

/-- Squared distance from query point `m` to its nearest node, i.e. the
kd-tree query `tree.query(x=m, k=1)[0]` squared: the minimum of `distSq m c`
over all coordinate rows `c` (`0` for an empty node set, which the source
never queries). -/
def minDistSq (cs : List Coord) (m : Coord) : ℚ :=
  match cs.map (distSq m) with
  | [] => 0
  | d :: ds => ds.foldl min d

/-- Per-edge Gabriel decision, one entry of the boolean mask
`g = n >= r*(0.999)`.  With `r = sqrt(distSq p q)/2` and
`n = sqrt(minDistSq)`, the test `n ≥ r·0.999` of two nonnegative reals is
equivalent to `n² ≥ (distSq/4)·(999/1000)²`, which is the form used here
(the equivalence is theorem `gabriel_retains_iff_nearest_ge`).  Endpoint
rows are fetched as in `coords[conns]`; out-of-range indices (which numpy
would reject, see `validEdges`) default to `[]`. -/
def gabrielKeep (cs : List Coord) (e : ℕ × ℕ) : Bool :=
  let p := cs.getD e.1 []
  let q := cs.getD e.2 []
  let m := edgeMidpoint p q
  let rSq := distSq p q / 4
  let nSq := minDistSq cs m
  decide (nSq ≥ rSq * (999/1000) ^ 2)

/-- The edge-filtering step `delaunay['edge.conns'][g]`: boolean-mask
indexing keeps exactly the rows whose mask entry is true, in order. -/
def gabrielEdges (cs : List Coord) (es : List (ℕ × ℕ)) : List (ℕ × ℕ) :=
  es.filter (gabrielKeep cs)

/-- A value stored in a network dictionary: a coordinate array, an edge
array, or any other payload (the source's dicts may carry further keys,
which `gabriel` copies through untouched). -/
inductive Val where
  | coords : List Coord → Val
  | conns : List (ℕ × ℕ) → Val
  | other : ℕ → Val
deriving DecidableEq

/-- A Python dict with string keys, as an association list without
duplicate keys (insertion order preserved, as in Python 3.7+). -/
abbrev Dict := List (String × Val)

/-- `d[k]`: first (only) binding of `k`. -/
def dictFind : Dict → String → Option Val
  | [], _ => none
  | (k', v) :: d, k => if k' = k then some v else dictFind d k

/-- `d[k] = v`: replace the binding of `k` in place if present, else append
at the end (Python dict assignment). -/
def dictSet : Dict → String → Val → Dict
  | [], k, v => [(k, v)]
  | (k', v') :: d, k, v => if k' = k then (k, v) :: d else (k', v') :: dictSet d k v

/-- `coords[conns]` requires every edge index to be in range; numpy raises
`IndexError` otherwise. -/
def validEdges (cs : List Coord) (es : List (ℕ × ℕ)) : Bool :=
  es.all fun e => decide (e.1 < cs.length) && decide (e.2 < cs.length)

/-- The Python exceptions this code can surface.  `configurationError`
is the error class the specification's taxonomy names; the source itself
never raises it. -/
inductive PyErr where
  | typeError
  | keyError
  | indexError
  | configurationError
deriving DecidableEq

/-- The body of `gabriel` from the tessellation dictionary onward
(source lines 40-55): read `'node.coords'` and `'edge.conns'` (missing or
ill-typed entries raise), filter the edges with the Gabriel mask, then
build the output as `d = {}; d.update(delaunay)` followed by
`d[ep + '.conns'] = filtered` and `d[np + '.coords'] = coords`.
`np`/`ep` are the source's `node_` and `edge_` name arguments
(default `'node'`/`'edge'`). -/
def gabrielDict (dl : Dict) (np ep : String) : Except PyErr Dict :=
  match dictFind dl "node.coords", dictFind dl "edge.conns" with
  | some (Val.coords cs), some (Val.conns es) =>
    if validEdges cs es then
      Except.ok (dictSet (dictSet dl (ep ++ ".conns") (Val.conns (gabrielEdges cs es)))
        (np ++ ".coords") (Val.coords cs))
    else Except.error PyErr.indexError
  | _, _ => Except.error PyErr.keyError

/-- Top-level `gabriel(points, delaunay, shape, ...)`.  When `points` is
given, the external `_delaunay` provider (out of scope here, hence a
function parameter) replaces `delaunay`; its second return value (`tri`)
is discarded.  When both `points` and `delaunay` are absent the source
falls through to subscripting `None`, a Python `TypeError`. -/
def gabriel {α β : Type} (delaunayFn : α → Option Coord → Dict × β)
    (points : Option α) (dl : Option Dict) (shape : Option Coord)
    (np ep : String) : Except PyErr Dict :=
  let dl' := match points with
    | some pts => some (delaunayFn pts shape).1
    | none => dl
  match dl' with
  | none => Except.error PyErr.typeError
  | some d => gabrielDict d np ep

/-! ## Helper lemmas -/

lemma distSq_nonneg (p q : Coord) : 0 ≤ distSq p q := by
  unfold distSq
  induction p generalizing q with
  | nil => simp
  | cons a p ih =>
    cases q with
    | nil => simp
    | cons b q =>
      simp only [List.zipWith_cons_cons, List.sum_cons]
      exact add_nonneg (sq_nonneg _) (ih q)

lemma foldl_min_nonneg (d : ℚ) (ds : List ℚ) (hd : 0 ≤ d) (hds : ∀ x ∈ ds, 0 ≤ x) :
    0 ≤ ds.foldl min d := by
  induction ds generalizing d with
  | nil => exact hd
  | cons e es ih =>
    simp only [List.foldl_cons]
    exact ih _ (le_min hd (hds e (List.mem_cons_self e es)))
      (fun x hx => hds x (List.mem_cons_of_mem e hx))

lemma minDistSq_nonneg (cs : List Coord) (m : Coord) : 0 ≤ minDistSq cs m := by
  unfold minDistSq
  cases h : cs.map (distSq m) with
  | nil => exact le_refl 0
  | cons d ds =>
    have hmem : ∀ x ∈ d :: ds, 0 ≤ x := by
      intro x hx
      rw [← h] at hx
      obtain ⟨c, _, rfl⟩ := List.mem_map.mp hx
      exact distSq_nonneg m c
    exact foldl_min_nonneg d ds (hmem d (List.mem_cons_self d ds))
      (fun x hx => hmem x (List.mem_cons_of_mem d hx))

lemma foldl_min_le_init (d : ℚ) (ds : List ℚ) : ds.foldl min d ≤ d := by
  induction ds generalizing d with
  | nil => exact le_refl d
  | cons e es ih =>
    simp only [List.foldl_cons]
    exact le_trans (ih (min d e)) (min_le_left d e)

lemma foldl_min_le_mem (d : ℚ) (ds : List ℚ) (x : ℚ) (hx : x ∈ ds) :
    ds.foldl min d ≤ x := by
  induction ds generalizing d with
  | nil => simp at hx
  | cons e es ih =>
    simp only [List.foldl_cons]
    rcases List.mem_cons.mp hx with rfl | hx
    · exact le_trans (foldl_min_le_init (min d x) es) (min_le_right d x)
    · exact ih _ hx

/-- `minDistSq` really is a lower bound on the squared distance to every
node: the embedded kd-tree query underapproximates no distance. -/
lemma minDistSq_le_distSq (cs : List Coord) (m c : Coord) (hc : c ∈ cs) :
    minDistSq cs m ≤ distSq m c := by
  unfold minDistSq
  cases h : cs.map (distSq m) with
  | nil =>
    rw [List.map_eq_nil_iff] at h
    rw [h] at hc
    simp at hc
  | cons d ds =>
    have hmem : distSq m c ∈ d :: ds := h ▸ List.mem_map_of_mem (distSq m) hc
    rcases List.mem_cons.mp hmem with h' | h'
    · exact h' ▸ foldl_min_le_init d ds
    · exact foldl_min_le_mem d ds _ h'

lemma foldl_min_mem (d : ℚ) (ds : List ℚ) : ds.foldl min d = d ∨ ds.foldl min d ∈ ds := by
  induction ds generalizing d with
  | nil => exact Or.inl rfl
  | cons e es ih =>
    simp only [List.foldl_cons]
    rcases ih (min d e) with h | h
    · rcases le_total d e with hde | hde
      · exact Or.inl (by rw [h, min_eq_left hde])
      · refine Or.inr ?_
        rw [h, min_eq_right hde]
        exact List.mem_cons_self e es
    · exact Or.inr (List.mem_cons_of_mem e h)

/-- For a nonempty node set the kd-tree distance is attained at some node. -/
lemma exists_minDistSq_eq (cs : List Coord) (m : Coord) (h : cs ≠ []) :
    ∃ c ∈ cs, minDistSq cs m = distSq m c := by
  unfold minDistSq
  cases hm : cs.map (distSq m) with
  | nil => exact absurd (List.map_eq_nil_iff.mp hm) h
  | cons d ds =>
    have hmem : ds.foldl min d ∈ d :: ds := by
      rcases foldl_min_mem d ds with h' | h'
      · rw [h']
        exact List.mem_cons_self d ds
      · exact List.mem_cons_of_mem d h'
    rw [← hm] at hmem
    obtain ⟨c, hc, hcd⟩ := List.mem_map.mp hmem
    exact ⟨c, hc, hcd.symm⟩

lemma dictFind_dictSet_self (d : Dict) (k : String) (v : Val) :
    dictFind (dictSet d k v) k = some v := by
  induction d with
  | nil => simp [dictSet, dictFind]
  | cons kv d ih =>
    obtain ⟨k', v'⟩ := kv
    by_cases h : k' = k
    · simp [dictSet, dictFind, h]
    · simp [dictSet, dictFind, h, ih]

lemma dictFind_dictSet_ne (d : Dict) (k k' : String) (v : Val) (h : k' ≠ k) :
    dictFind (dictSet d k v) k' = dictFind d k' := by
  induction d with
  | nil => simp [dictSet, dictFind, Ne.symm h]
  | cons kv d ih =>
    obtain ⟨k₀, v₀⟩ := kv
    by_cases h0 : k₀ = k
    · subst h0
      simp [dictSet, dictFind, Ne.symm h]
    · simp [dictSet, dictFind, h0, ih]

/-- No edge key can collide with a node key: the two fixed suffixes
`".conns"` and `".coords"` differ in their second-to-last character. -/
lemma conns_key_ne_coords_key (a b : String) : a ++ ".conns" ≠ b ++ ".coords" := by
  intro h
  have h2 : (a ++ ".conns").data.reverse = (b ++ ".coords").data.reverse := by rw [h]
  simp [String.data_append, List.reverse_append] at h2

/-- The decidable squared comparison in `gabrielKeep` agrees with the
source's comparison of true Euclidean lengths: the mask entry is true
exactly when `sqrt(minDistSq) ≥ (sqrt(distSq)/2) * 0.999`. -/
lemma gabrielKeep_iff_sqrt (cs : List Coord) (i j : ℕ) :
    gabrielKeep cs (i, j) = true ↔
      Real.sqrt (minDistSq cs (edgeMidpoint (cs.getD i []) (cs.getD j []))) ≥
        Real.sqrt (distSq (cs.getD i []) (cs.getD j [])) / 2 * (1 - 1/1000) := by
  have hn : (0:ℚ) ≤ minDistSq cs (edgeMidpoint (cs.getD i []) (cs.getD j [])) :=
    minDistSq_nonneg _ _
  have hd : (0:ℚ) ≤ distSq (cs.getD i []) (cs.getD j []) := distSq_nonneg _ _
  have key : Real.sqrt ((distSq (cs.getD i []) (cs.getD j []) : ℚ) : ℝ) / 2 * (1 - 1/1000)
      = Real.sqrt (((distSq (cs.getD i []) (cs.getD j []) / 4 * (999/1000)^2 : ℚ) : ℝ)) := by
    have hc : (((distSq (cs.getD i []) (cs.getD j []) / 4 * (999/1000)^2 : ℚ)) : ℝ)
        = ((distSq (cs.getD i []) (cs.getD j []) : ℚ) : ℝ) * (999/2000)^2 := by
      push_cast
      ring
    rw [hc, Real.sqrt_mul (by exact_mod_cast hd) _,
      Real.sqrt_sq (by norm_num : (0:ℝ) ≤ 999/2000)]
    ring
  rw [ge_iff_le, key, Real.sqrt_le_sqrt_iff (by exact_mod_cast hn), Rat.cast_le]
  simp only [gabrielKeep, decide_eq_true_eq, ge_iff_le]

/-! ## Sample inputs used by witnesses and counterexamples -/

/-- Two nodes two length-units apart; the single edge between them has its
own endpoints as nearest nodes of its midpoint (`n = r` exactly). -/
def csW : List Coord := [[0, 0], [2, 0]]

def esW : List (ℕ × ℕ) := [(0, 1)]

/-- A tessellation dictionary carrying one extra non-geometric key. -/
def dlW : Dict :=
  [("node.coords", Val.coords csW), ("edge.conns", Val.conns esW), ("extra", Val.other 7)]

/-- Scenario B of the specification: triangle `(0,0), (1,0), (0.5, 0.1)`. -/
def csB : List Coord := [[0, 0], [1, 0], [1/2, 1/10]]

/-- The three Delaunay edges of the scenario-B triangle. -/
def esB : List (ℕ × ℕ) := [(0, 1), (0, 2), (1, 2)]

/-! ## Claim theorems -/

/-- C1: for every candidate edge `(i, j)` the Gabriel filter retains the
edge iff the nearest-node distance `n` from the edge midpoint
`m = (coords[i] + coords[j]) / 2` satisfies `n ≥ r · (1 − ε)` with
`ε = 0.001`, where `r = ‖coords[i] − coords[j]‖ / 2`; and every candidate
edge yields a definite retain/discard decision (the mask entry is a total
Boolean value). -/
theorem gabriel_retains_iff_nearest_ge (cs : List Coord) (i j : ℕ) :
    (gabrielKeep cs (i, j) = true ↔
      Real.sqrt (minDistSq cs (edgeMidpoint (cs.getD i []) (cs.getD j []))) ≥
        Real.sqrt (distSq (cs.getD i []) (cs.getD j [])) / 2 * (1 - 1/1000)) ∧
    (gabrielKeep cs (i, j) = true ∨ gabrielKeep cs (i, j) = false) :=
  ⟨gabrielKeep_iff_sqrt cs i j, Bool.eq_false_or_eq_true _⟩

/-- C2: every edge pair in the filter's output was among the candidate
edges (Gabriel ⊆ Delaunay). -/
theorem gabriel_edges_subset_candidates (cs : List Coord) (es : List (ℕ × ℕ))
    (e : ℕ × ℕ) (he : e ∈ gabrielEdges cs es) : e ∈ es :=
  List.mem_of_mem_filter he

/-- Witness for C2 at a concrete input: the surviving edge of `csW`/`esW`
is a candidate edge. -/
theorem gabriel_edges_subset_candidates_witness : ((0, 1) : ℕ × ℕ) ∈ esW :=
  gabriel_edges_subset_candidates csW esW (0, 1)
    (by norm_num [gabrielEdges, gabrielKeep, minDistSq, distSq, edgeMidpoint, csW, esW,
      List.filter])

/-- C3: the output stores the input node coordinate sequence unchanged (in
length, order and content) under the node key; filtering removes only
edges, never nodes. -/
theorem gabriel_preserves_node_coords (dl : Dict) (np ep : String)
    (cs : List Coord) (es : List (ℕ × ℕ))
    (h1 : dictFind dl "node.coords" = some (Val.coords cs))
    (h2 : dictFind dl "edge.conns" = some (Val.conns es))
    (h3 : validEdges cs es = true) :
    ∃ out, gabrielDict dl np ep = Except.ok out ∧
      dictFind out (np ++ ".coords") = some (Val.coords cs) := by
  have hout : gabrielDict dl np ep = Except.ok (dictSet
      (dictSet dl (ep ++ ".conns") (Val.conns (gabrielEdges cs es)))
      (np ++ ".coords") (Val.coords cs)) := by
    unfold gabrielDict
    rw [h1, h2]
    simp [h3]
  exact ⟨_, hout, dictFind_dictSet_self _ _ _⟩

/-- Witness for C3: on the concrete dictionary `dlW` the output's node
coordinates are exactly `csW`. -/
theorem gabriel_preserves_node_coords_witness :
    ∃ out, gabrielDict dlW "node" "edge" = Except.ok out ∧
      dictFind out ("node" ++ ".coords") = some (Val.coords csW) :=
  gabriel_preserves_node_coords dlW "node" "edge" csW esW rfl rfl rfl

/-- C4: an edge whose nearest-node distance from its midpoint equals its
half-length exactly is retained: equality is no violation under the
`0.999` tolerance rule. -/
theorem gabriel_retains_boundary_equality (cs : List Coord) (i j : ℕ)
    (h : Real.sqrt (minDistSq cs (edgeMidpoint (cs.getD i []) (cs.getD j []))) =
      Real.sqrt (distSq (cs.getD i []) (cs.getD j [])) / 2) :
    gabrielKeep cs (i, j) = true := by
  rw [gabrielKeep_iff_sqrt, ge_iff_le, h]
  have h0 : (0:ℝ) ≤ Real.sqrt (distSq (cs.getD i []) (cs.getD j [])) := Real.sqrt_nonneg _
  nlinarith

/-- Witness for C4: in `csW` the midpoint of the single edge is at distance
exactly `r = 1` from both endpoints, and the edge is retained. -/
theorem gabriel_retains_boundary_equality_witness : gabrielKeep csW (0, 1) = true :=
  gabriel_retains_boundary_equality csW 0 1 (by
    have h4 : Real.sqrt (4:ℝ) = 2 := by
      rw [show (4:ℝ) = 2^2 by norm_num, Real.sqrt_sq (by norm_num : (0:ℝ) ≤ 2)]
    norm_num [csW, minDistSq, distSq, edgeMidpoint, h4])

/-- C5 counterexample: in scenario B the base edge `(0, 1)` is a candidate
but is NOT retained, because node 2 at `(0.5, 0.1)` lies at distance `0.1`
from the base midpoint `(0.5, 0)`, inside the diametral circle of radius
`0.5`; so the filter does not retain all 3 edges as the claim states. -/
theorem gabriel_scenarioB_counterexample :
    ((0, 1) : ℕ × ℕ) ∈ esB ∧ ((0, 1) : ℕ × ℕ) ∉ gabrielEdges csB esB := by
  constructor
  · simp [esB]
  · norm_num [gabrielEdges, gabrielKeep, minDistSq, distSq, edgeMidpoint, csB, esB,
      List.filter]

/-- C5 amended: on scenario B the filter retains exactly the two apex
edges `(0, 2)` and `(1, 2)` and discards the base edge `(0, 1)`. -/
theorem gabriel_scenarioB_keeps_apex_edges :
    gabrielEdges csB esB = [(0, 2), (1, 2)] := by
  norm_num [gabrielEdges, gabrielKeep, minDistSq, distSq, edgeMidpoint, csB, esB,
    List.filter]

/-- C6 counterexample: invoked with neither points nor a tessellation, the
code subscripts `None` and fails with a `TypeError`, which is not the
`ConfigurationError` the claim names. -/
theorem gabriel_no_input_not_configurationError :
    gabriel (fun (_ : ℕ) (_ : Option Coord) => (([] : Dict), ())) none none none
        "node" "edge" = Except.error PyErr.typeError ∧
      (Except.error PyErr.typeError : Except PyErr Dict) ≠
        Except.error PyErr.configurationError :=
  ⟨rfl, by simp⟩

/-- C6 amended: with neither `points` nor `delaunay` supplied, `gabriel`
fails for every provider, shape and naming, with a `TypeError` (from
subscripting `None`), not a `ConfigurationError`. -/
theorem gabriel_no_input_typeError {α β : Type} (f : α → Option Coord → Dict × β)
    (shape : Option Coord) (np ep : String) :
    gabriel f none none shape np ep = Except.error PyErr.typeError := rfl

/-- C7: the node and edge arrays stored under caller-chosen collection
names equal those stored under the default names `node`/`edge`: the names
are pure re-labeling with no effect on the geometric computation (which
reads the fixed input keys `node.coords`/`edge.conns`). -/
theorem gabriel_names_relabel_only (dl : Dict) (np ep : String)
    (cs : List Coord) (es : List (ℕ × ℕ))
    (h1 : dictFind dl "node.coords" = some (Val.coords cs))
    (h2 : dictFind dl "edge.conns" = some (Val.conns es))
    (h3 : validEdges cs es = true) :
    ∃ out outD, gabrielDict dl np ep = Except.ok out ∧
      gabrielDict dl "node" "edge" = Except.ok outD ∧
      dictFind out (np ++ ".coords") = dictFind outD ("node" ++ ".coords") ∧
      dictFind out (ep ++ ".conns") = dictFind outD ("edge" ++ ".conns") := by
  have hout : gabrielDict dl np ep = Except.ok (dictSet
      (dictSet dl (ep ++ ".conns") (Val.conns (gabrielEdges cs es)))
      (np ++ ".coords") (Val.coords cs)) := by
    unfold gabrielDict
    rw [h1, h2]
    simp [h3]
  have houtD : gabrielDict dl "node" "edge" = Except.ok (dictSet
      (dictSet dl ("edge" ++ ".conns") (Val.conns (gabrielEdges cs es)))
      ("node" ++ ".coords") (Val.coords cs)) := by
    unfold gabrielDict
    rw [h1, h2]
    simp [h3]
  refine ⟨_, _, hout, houtD, ?_, ?_⟩
  · rw [dictFind_dictSet_self, dictFind_dictSet_self]
  · rw [dictFind_dictSet_ne _ _ _ _ (conns_key_ne_coords_key ep np),
      dictFind_dictSet_self,
      dictFind_dictSet_ne _ _ _ _ (conns_key_ne_coords_key "edge" "node"),
      dictFind_dictSet_self]

/-- Witness for C7: with names `vert`/`bond` on the concrete dictionary
`dlW`, the stored arrays equal those of the default-named run. -/
theorem gabriel_names_relabel_only_witness :
    ∃ out outD, gabrielDict dlW "vert" "bond" = Except.ok out ∧
      gabrielDict dlW "node" "edge" = Except.ok outD ∧
      dictFind out ("vert" ++ ".coords") = dictFind outD ("node" ++ ".coords") ∧
      dictFind out ("bond" ++ ".conns") = dictFind outD ("edge" ++ ".conns") :=
  gabriel_names_relabel_only dlW "vert" "bond" csW esW rfl rfl rfl

/-- C8: the filter is stable — the retained edges form a sublist of the
candidate list, i.e. they appear in their original relative order. -/
theorem gabriel_filter_stable (cs : List Coord) (es : List (ℕ × ℕ)) :
    (gabrielEdges cs es).Sublist es :=
  List.filter_sublist es

/-- C9: the Gabriel filter is idempotent: re-filtering its own retained
edge list (with the same, unchanged node coordinates) returns it
unchanged.  Determinism of two runs on one input is definitional — the
embedding is a pure function. -/
theorem gabriel_filter_idempotent (cs : List Coord) (es : List (ℕ × ℕ)) :
    gabrielEdges cs (gabrielEdges cs es) = gabrielEdges cs es := by
  unfold gabrielEdges
  rw [List.filter_filter]
  simp

/-- C10: every input key other than the two output keys is copied to the
output with its value unchanged; in particular, with a non-default edge
name the input's original unfiltered `edge.conns` array survives in the
output (see the witness). -/
theorem gabriel_copies_other_keys (dl : Dict) (np ep : String)
    (cs : List Coord) (es : List (ℕ × ℕ)) (k : String)
    (h1 : dictFind dl "node.coords" = some (Val.coords cs))
    (h2 : dictFind dl "edge.conns" = some (Val.conns es))
    (h3 : validEdges cs es = true)
    (hk1 : k ≠ ep ++ ".conns") (hk2 : k ≠ np ++ ".coords") :
    ∃ out, gabrielDict dl np ep = Except.ok out ∧ dictFind out k = dictFind dl k := by
  have hout : gabrielDict dl np ep = Except.ok (dictSet
      (dictSet dl (ep ++ ".conns") (Val.conns (gabrielEdges cs es)))
      (np ++ ".coords") (Val.coords cs)) := by
    unfold gabrielDict
    rw [h1, h2]
    simp [h3]
  refine ⟨_, hout, ?_⟩
  rw [dictFind_dictSet_ne _ _ _ _ hk2, dictFind_dictSet_ne _ _ _ _ hk1]

/-- Witness for C10: with edge name `bond`, the input's original
(unfiltered) `edge.conns` entry is still present, unchanged, in the
output dictionary. -/
theorem gabriel_copies_other_keys_witness :
    ∃ out, gabrielDict dlW "node" "bond" = Except.ok out ∧
      dictFind out "edge.conns" = dictFind dlW "edge.conns" :=
  gabriel_copies_other_keys dlW "node" "bond" csW esW "edge.conns" rfl rfl rfl
    (by decide) (by decide)
